import Mathlib

/-!
Shallow embedding of the angle-matching core of the DemTestFinal3 app:
the stimulus generator (`src/app/test/page.tsx`) and the LineCanvas
layout / paint / hit-test engine (`src/components/LineCanvas.tsx`,
shipped here as `src/unnamed/part_004`).

Numbers are modelled by `ℚ` (the code does exact small-denominator
arithmetic on JS doubles: sums of integers and multiples of 2.5/7.5,
divisions by powers of two and percentages).  The only genuinely
irrational operations are `Math.cos`/`Math.sin` inside the canvas
geometry; these are modelled by explicit function parameters
`cosd sind : ℚ → ℚ` (degree-indexed direction components, arbitrary
approximations), and `Math.sqrt`/`Math.hypot` comparisons are written
in their exact squared form (`|c|/√d ≤ 5 ↔ c² ≤ 25·d` for `d > 0`,
`√a < √b ↔ a < b` for nonnegative arguments).

`Math.random()` draws are modelled by an explicit oracle record; each
field is an independent stream of draws, reduced `% bound` where the
code computes `Math.floor(Math.random() * bound)` (both forms realise
exactly the integers `0 .. bound-1`).  The implementation-defined
permutation produced by `options.sort(() => Math.random() - 0.5)` is
modelled by a seed-driven selection permutation (`shuffleWith`), which
realises exactly the permutations of its input.
-/

namespace DemTest

/-! ## JS-style numeric helpers -/

/-- Truncation toward zero, as JS `%` uses. -/
def jsTrunc (q : ℚ) : ℤ := if 0 ≤ q then ⌊q⌋ else ⌈q⌉

/-- JS remainder operator `a % b` (sign of the dividend). -/
def jsMod (a b : ℚ) : ℚ := a - b * jsTrunc (a / b)

/-- `normalizeAngle` from `src/app/test/page.tsx`:
`((angle % 360) + 360) % 360`. -/
def normalizeAngle (angle : ℚ) : ℚ := jsMod (jsMod angle 360 + 360) 360

/-- Angle categories used by the generator. -/
inductive Category where
  | acute
  | obtuse
  | right
deriving DecidableEq, Repr

/-- `getAngleCategory` from `src/app/test/page.tsx`:
classify `angle % 180` (JS remainder) as right (=90), acute (<90)
or obtuse (otherwise). -/
def getAngleCategory (angle : ℚ) : Category :=
  let normalizedAngle := jsMod angle 180
  if normalizedAngle = 90 then .right
  else if normalizedAngle < 90 then .acute
  else .obtuse

/-- The category clamp applied to every chain-generated option
(`Math.max(lo, Math.min(hi, newAngle))` with the sub-range depending
on the target's category). -/
def clampCat (c : Category) (x : ℚ) : ℚ :=
  match c with
  | .acute => max 0 (min 80 x)
  | .obtuse => max 100 (min 180 x)
  | .right => max 80 (min 100 x)

/-- Lower end of a category's clamp sub-range. -/
def catLo (c : Category) : ℚ :=
  match c with
  | .acute => 0
  | .obtuse => 100
  | .right => 80

/-- Upper end of a category's clamp sub-range. -/
def catHi (c : Category) : ℚ :=
  match c with
  | .acute => 80
  | .obtuse => 180
  | .right => 100

/-! ## Data model -/

/-- `Settings` from `src/contexts/SettingsContext.tsx`. -/
structure Settings where
  stimuliCount : ℤ
  anglesPerQuadrant : ℕ
  correctQuadrant : ℕ
  useCorrectQuadrant : Bool
  degreeVariance : ℚ
  targetAngles : List ℚ

/-- `Stimulus` from `src/app/test/page.tsx`. -/
structure Stimulus where
  targetAngle : ℚ
  options : List ℚ
deriving DecidableEq, Repr, Inhabited

/-- One stimulus' worth of `Math.random()` draws, split by use site.
Each field is an independent stream; integer draws
`Math.floor(Math.random() * bound)` are realised as `field i % bound`. -/
structure StimOracle where
  pick : ℕ → ℕ
  dir : ℕ → Bool
  repairPick : ℕ → ℕ
  repairDir : ℕ → Bool
  shuffle : List ℕ
  randTen : ℕ
  swapPick : ℕ

/-- JS `Array.prototype.indexOf` / `findIndex` on an angle list:
index of the first occurrence, `-1` when absent. -/
def jsIndexOf (t : ℚ) : List ℚ → ℤ
  | [] => -1
  | x :: xs =>
    if x = t then 0
    else
      let r := jsIndexOf t xs
      if r < 0 then -1 else r + 1

/-- The chain-growth loop of `generateStimuli`
(`while (options.length < totalAnglesNeeded) { ... }`): pick a random
existing option as base, step by `±degreeVariance`, normalize, clamp
into the target category's sub-range, and append.  `fuel` is the
number of iterations left (the loop adds exactly one option per
iteration). -/
def chainGrow (o : StimOracle) (cat : Category) (variance : ℚ) :
    ℕ → ℕ → List ℚ → List ℚ
  | 0, _, options => options
  | fuel + 1, step, options =>
    let baseAngle := options.getD (o.pick step % options.length) 0
    let direction : ℚ := if o.dir step then 1 else -1
    let newAngle := clampCat cat (normalizeAngle (baseAngle + direction * variance))
    chainGrow o cat variance fuel (step + 1) (options ++ [newAngle])

/-- One iteration of the "ensure exactly one correct angle" repair
loop of `generateStimuli`: find the first index of the target, and if
(and only if) it is positive, remove it and append a freshly chained
replacement (re-aimed away from the target when it lands within 1
degree of it). -/
def repairStep (o : StimOracle) (target : ℚ) (cat : Category) (variance : ℚ)
    (step : ℕ) (options : List ℚ) : List ℚ :=
  let index := jsIndexOf target options
  if 0 < index then
    let options' := options.eraseIdx index.toNat
    let baseAngle := options'.getD (o.repairPick step % options'.length) 0
    let direction : ℚ := if o.repairDir step then 1 else -1
    let newAngle := normalizeAngle (baseAngle + direction * variance)
    let newAngle :=
      if |newAngle - target| < 1 then normalizeAngle (target + variance * direction)
      else newAngle
    options' ++ [clampCat cat newAngle]
  else options

/-- The repair loop, run `correctCount - 1` times. -/
def repairLoop (o : StimOracle) (target : ℚ) (cat : Category) (variance : ℚ) :
    ℕ → ℕ → List ℚ → List ℚ
  | 0, _, options => options
  | n + 1, step, options =>
    repairLoop o target cat variance n (step + 1)
      (repairStep o target cat variance step options)

/-- Seed-driven selection permutation, modelling the
implementation-defined permutation produced by
`options.sort(() => Math.random() - 0.5)`: every output is a
permutation of the input, and every permutation is realised by some
seed list. -/
def shuffleWith : List ℕ → List ℚ → List ℚ
  | _, [] => []
  | [], xs => xs
  | s :: ss, x :: xs =>
    let l := x :: xs
    let i := s % l.length
    l.getD i 0 :: shuffleWith ss (l.eraseIdx i)

/-- The quadrant-placement step of `generateStimuli` (only reached
when `useCorrectQuadrant`): if the first index of the target is not in
the band `[(correctQuadrant-1)*anglesPerQuadrant,
correctQuadrant*anglesPerQuadrant)`, swap it with a random index in
that band.  Band bounds are computed in `ℤ` as in JS; for validated
configurations (`1 ≤ correctQuadrant ≤ 4`) all indices are in range. -/
def placeQuadrant (swapPick : ℕ) (apq cq : ℕ) (target : ℚ) (options : List ℚ) :
    List ℚ :=
  let quadrantSize := apq
  let targetQuadrantStart : ℤ := ((cq : ℤ) - 1) * quadrantSize
  let targetQuadrantEnd : ℤ := targetQuadrantStart + quadrantSize
  let targetIndex := jsIndexOf target options
  if targetIndex < targetQuadrantStart ∨ targetQuadrantEnd ≤ targetIndex then
    let randomIndex : ℤ := targetQuadrantStart + (swapPick % quadrantSize : ℕ)
    let a := options.getD targetIndex.toNat 0
    let b := options.getD randomIndex.toNat 0
    (options.set targetIndex.toNat b).set randomIndex.toNat a
  else options

/-- The target-angle resolution of `generateStimuli`:
`normalizeAngle(targetAngles[stimulusIndex] || Math.floor(Math.random()*36)*10)`.
The `||` treats both a missing slot (`undefined`) and a present `0` as
falsy, which `List.getD _ _ 0 = 0` captures exactly. -/
def genTarget (o : StimOracle) (s : Settings) (stimulusIndex : ℕ) : ℚ :=
  let slot := s.targetAngles.getD stimulusIndex 0
  normalizeAngle (if slot = 0 then ((o.randTen % 36) * 10 : ℕ) else slot)

/-- The option list of one stimulus up to and including the shuffle:
chain growth to `anglesPerQuadrant*4` entries, the (dead) uniqueness
repair loop, then the shuffle. -/
def genShuffled (o : StimOracle) (s : Settings) (stimulusIndex : ℕ) : List ℚ :=
  let targetAngle := genTarget o s stimulusIndex
  let targetCategory := getAngleCategory targetAngle
  let totalAnglesNeeded := s.anglesPerQuadrant * 4
  let options := chainGrow o targetCategory s.degreeVariance
    (totalAnglesNeeded - 1) 0 [targetAngle]
  let correctCount := options.count targetAngle
  let options :=
    if 1 < correctCount then
      repairLoop o targetAngle targetCategory s.degreeVariance (correctCount - 1) 0 options
    else options
  shuffleWith o.shuffle options

/-- One stimulus of `generateStimuli` (`src/app/test/page.tsx`,
body of the `Array.from` callback): resolve the target, grow, repair
and shuffle the options, then apply quadrant placement when
`useCorrectQuadrant`. -/
def generateStimulus (o : StimOracle) (s : Settings) (stimulusIndex : ℕ) :
    Stimulus :=
  let targetAngle := genTarget o s stimulusIndex
  let options := genShuffled o s stimulusIndex
  let options :=
    if s.useCorrectQuadrant then
      placeQuadrant o.swapPick s.anglesPerQuadrant s.correctQuadrant targetAngle options
    else options
  { targetAngle := targetAngle, options := options }

/-- `generateStimuli` from `src/app/test/page.tsx`:
`Array.from({ length: stimuliCount }, (_, i) => ...)`; JS `ToLength`
clamps a negative length to 0, which `Int.toNat` captures. -/
def generateStimuli (o : ℕ → StimOracle) (s : Settings) : List Stimulus :=
  (List.range s.stimuliCount.toNat).map fun i => generateStimulus (o i) s i

/-! ## LineCanvas: layout -/

/-- `Line` from `LineCanvas` (`src/unnamed/part_004`).  The `id` is an
opaque unique token (`Math.random().toString(36).substr(2, 9)` in the
code); it is modelled by the option's index, which is likewise unique
per render pass. -/
structure Line where
  angle : ℚ
  id : ℕ
  quadrant : ℕ
  position : ℚ × ℚ
deriving DecidableEq, Repr, Inhabited

/-- The anchor-position formula of the layout `useEffect` in
`LineCanvas`: branch on `anglesPerQuadrant`, place 1/2/3/4 anchors per
quadrant at a `15%`-of-size padding inside the `size/2` quadrant. -/
def layoutPosition (size : ℚ) (anglesPerQuadrant : ℕ) (quadrant angleIndexInQuadrant : ℕ) :
    ℚ × ℚ :=
  let quadrantSize := size / 2
  let padding := size * (15 / 100)
  let availableSpace := quadrantSize - padding * 2
  if anglesPerQuadrant = 1 then
    (if quadrant % 2 = 0 then padding else quadrantSize + padding,
     if quadrant < 2 then padding else quadrantSize + padding)
  else if anglesPerQuadrant = 2 then
    (if quadrant % 2 = 0 then padding + angleIndexInQuadrant * availableSpace
     else quadrantSize + padding + (1 - (angleIndexInQuadrant : ℚ)) * availableSpace,
     if quadrant < 2 then padding else quadrantSize + padding)
  else if anglesPerQuadrant = 3 then
    if angleIndexInQuadrant = 0 then
      (if quadrant % 2 = 0 then padding else quadrantSize + padding,
       if quadrant < 2 then padding else quadrantSize + padding)
    else
      (if quadrant % 2 = 0 then padding + ((angleIndexInQuadrant : ℚ) - 1) * availableSpace
       else quadrantSize + padding + (2 - (angleIndexInQuadrant : ℚ)) * availableSpace,
       if quadrant < 2 then padding + availableSpace
       else quadrantSize + padding + availableSpace)
  else
    (if quadrant % 2 = 0 then
       padding + ((angleIndexInQuadrant % 2 : ℕ) : ℚ) * availableSpace
     else quadrantSize + padding + (1 - ((angleIndexInQuadrant % 2 : ℕ) : ℚ)) * availableSpace,
     if quadrant < 2 then
       if angleIndexInQuadrant / 2 = 0 then padding else padding + availableSpace
     else
       if angleIndexInQuadrant / 2 = 0 then quadrantSize + padding
       else quadrantSize + padding + availableSpace)

/-- The layout `useEffect` of `LineCanvas`: derive
`anglesPerQuadrant = Math.ceil(angles.length / 4)`, and map each angle
to a `Line` with its quadrant (`Math.floor(index / anglesPerQuadrant)`)
and anchor position. -/
def layoutLines (angles : List ℚ) (size : ℚ) : List Line :=
  let anglesPerQuadrant := (angles.length + 3) / 4
  angles.enum.map fun p =>
    let index := p.1
    let quadrant := index / anglesPerQuadrant
    let angleIndexInQuadrant := index % anglesPerQuadrant
    { angle := p.2, id := index, quadrant := quadrant,
      position := layoutPosition size anglesPerQuadrant quadrant angleIndexInQuadrant }

/-! ## LineCanvas: paint pass -/

/-- Stroke colors used by the paint pass. -/
inductive DrawColor where
  | black
  | blue
  | lightblue
deriving DecidableEq, Repr

/-- One `drawLine` invocation: start point, angle, color, width and
length as handed to the 2D context.  (The stroked endpoint is
`(startX + cos(angle°)·length, startY - sin(angle°)·length)`; see
`segmentEnd`.) -/
structure DrawCmd where
  startX : ℚ
  startY : ℚ
  angle : ℚ
  color : DrawColor
  lineWidth : ℚ
  length : ℚ
deriving DecidableEq, Repr

/-- Endpoint of a drawn segment, `drawLine` in `LineCanvas`:
`endX = startX + Math.cos(radians) * length`,
`endY = startY - Math.sin(radians) * length`.  `cosd`/`sind` model
`Math.cos`/`Math.sin` composed with the degree→radian conversion. -/
def segmentEnd (cosd sind : ℚ → ℚ) (startX startY angle length : ℚ) : ℚ × ℚ :=
  (startX + cosd angle * length, startY - sind angle * length)

/-- The paint `useEffect` of `LineCanvas`: clear, then either draw the
single centered reference line (when `targetAngle !== undefined`) or
draw every option line with selection/hover emphasis. -/
def paintCanvas (size : ℚ) (targetAngle : Option ℚ) (lines : List Line)
    (selectedAngle : Option ℚ) (hoveredId : Option ℕ) (disabled : Bool) :
    List DrawCmd :=
  let lineLength := size / 8
  match targetAngle with
  | some t =>
    [{ startX := size / 2, startY := size / 2, angle := t, color := .black,
       lineWidth := 3, length := lineLength }]
  | none =>
    lines.map fun line =>
      let isSelected := selectedAngle = some line.angle
      let isHovered := hoveredId = some line.id
      let color : DrawColor :=
        if isSelected then .blue
        else if isHovered ∧ disabled = false then .lightblue
        else .black
      let lineWidth : ℚ := if isSelected ∨ (isHovered ∧ disabled = false) then 8 else 6
      { startX := line.position.1, startY := line.position.2, angle := line.angle,
        color := color, lineWidth := lineWidth, length := lineLength }

/-! ## LineCanvas: hit testing -/

/-- Squared distance from the pointer to a line's anchor point.  The
code compares `Math.hypot(line.position.x - x, line.position.y - y)`
values; comparing their squares is exactly equivalent since `hypot` is
nonnegative and strictly monotone in the squared sum. -/
def anchorDistSq (x y : ℚ) (line : Line) : ℚ :=
  (line.position.1 - x) ^ 2 + (line.position.2 - y) ^ 2

/-- `isPointNearLine` from `LineCanvas`: extend the segment to
`min(size/3, 150)`, clamp the endpoint into the canvas minus a
20-pixel padding, then require perpendicular distance ≤ 5 to the
infinite line through anchor and endpoint, and membership in the
bounding box expanded by 10.  The distance comparison
`|cross| / √denomSq ≤ 5` is written in the exact squared form
`0 < denomSq ∧ cross² ≤ 25·denomSq` (for `denomSq = 0` the JS division
yields `NaN` and the comparison is false). -/
def isPointNearLine (cosd sind : ℚ → ℚ) (size x y : ℚ) (line : Line) : Bool :=
  let lineLength := min (size / 3) 150
  let endX0 := line.position.1 + cosd line.angle * lineLength
  let endY0 := line.position.2 - sind line.angle * lineLength
  let padding : ℚ := 20
  let endX := max padding (min endX0 (size - padding))
  let endY := max padding (min endY0 (size - padding))
  let cross := (endY - line.position.2) * x - (endX - line.position.1) * y +
    endX * line.position.2 - endY * line.position.1
  let denomSq := (endY - line.position.2) ^ 2 + (endX - line.position.1) ^ 2
  decide (0 < denomSq ∧ cross ^ 2 ≤ 25 * denomSq ∧
    min line.position.1 endX - 10 ≤ x ∧ x ≤ max line.position.1 endX + 10 ∧
    min line.position.2 endY - 10 ≤ y ∧ y ≤ max line.position.2 endY + 10)

/-- The reduce step shared by `handleCanvasClick` and
`handleCanvasMouseMove`: keep the line whose anchor is strictly closer
to the pointer (ties keep the earlier line). -/
def pickCloser (x y : ℚ) (closest current : Line) : Line :=
  if anchorDistSq x y current < anchorDistSq x y closest then current else closest

/-- The hit-test core of `handleCanvasClick`/`handleCanvasMouseMove`:
filter the candidate lines with `isPointNearLine`, and reduce the
nonempty candidate list to the anchor-closest line. -/
def hitTest (cosd sind : ℚ → ℚ) (size : ℚ) (lines : List Line) (x y : ℚ) :
    Option Line :=
  match lines.filter (isPointNearLine cosd sind size x y) with
  | [] => none
  | c :: cs => some (cs.foldl (pickCloser x y) c)

/-! ## LineCanvas + test page: pointer event machine -/

/-- The `LineCanvas` props relevant to input handling. -/
structure CanvasProps where
  lines : List Line
  selectedAngle : Option ℚ
  disabled : Bool
  hasOnSelect : Bool

/-- `handleCanvasClick`: the selection emitted (via `onSelect`) by one
click, `none` when the guard
`disabled || !onSelect || selectedAngle !== null` fires or no line is
hit. -/
def canvasClick (cosd sind : ℚ → ℚ) (size : ℚ) (p : CanvasProps) (x y : ℚ) :
    Option ℚ :=
  if p.disabled ∨ p.hasOnSelect = false ∨ p.selectedAngle.isSome then none
  else (hitTest cosd sind size p.lines x y).map Line.angle

/-- `handleCanvasMouseMove`: the new hovered line after one pointer
move (unchanged when `disabled`, else the hit-test result or `none`). -/
def canvasMove (cosd sind : ℚ → ℚ) (size : ℚ) (p : CanvasProps)
    (hovered : Option Line) (x y : ℚ) : Option Line :=
  if p.disabled then hovered
  else hitTest cosd sind size p.lines x y

/-- Pointer events delivered to the canvas. -/
inductive PointerEvent where
  | click (x y : ℚ)
  | move (x y : ℚ)
  | leave

/-- The per-stimulus interaction state of the test page: its
`selectedAngle` React state and the canvas hover state. -/
structure TestState where
  selectedAngle : Option ℚ
  hovered : Option Line
deriving DecidableEq, Repr

/-- One event step of the composed system (test page `Test` wiring
`LineCanvas`): the page passes `disabled = (selectedAngle !== null)`
and an `onSelect` that stores the emitted angle into `selectedAngle`
(`handleSelection` → `setSelectedAngle`).  Returns the next state and
the selection committed by this event, if any. -/
def pageStep (cosd sind : ℚ → ℚ) (size : ℚ) (lines : List Line)
    (st : TestState) (ev : PointerEvent) : TestState × Option ℚ :=
  let props : CanvasProps :=
    { lines := lines, selectedAngle := st.selectedAngle,
      disabled := st.selectedAngle.isSome, hasOnSelect := true }
  match ev with
  | .click x y =>
    match canvasClick cosd sind size props x y with
    | some a => ({ st with selectedAngle := some a }, some a)
    | none => (st, none)
  | .move x y =>
    ({ st with hovered := canvasMove cosd sind size props st.hovered x y }, none)
  | .leave => ({ st with hovered := none }, none)

/-- Run a sequence of pointer events, collecting every committed
selection. -/
def pageRun (cosd sind : ℚ → ℚ) (size : ℚ) (lines : List Line)
    (st : TestState) : List PointerEvent → TestState × List ℚ
  | [] => (st, [])
  | ev :: evs =>
    let r := pageStep cosd sind size lines st ev
    let rest := pageRun cosd sind size lines r.1 evs
    (rest.1, r.2.toList ++ rest.2)

/-! ## Numeric lemmas -/

theorem jsMod_of_nonneg_of_lt {a b : ℚ} (h0 : 0 ≤ a) (hab : a < b) :
    jsMod a b = a := by
  have hb : 0 < b := lt_of_le_of_lt h0 hab
  have hq0 : 0 ≤ a / b := div_nonneg h0 hb.le
  have hq1 : a / b < 1 := (div_lt_one hb).mpr hab
  have : jsTrunc (a / b) = 0 := by
    rw [jsTrunc, if_pos hq0]
    exact Int.floor_eq_zero_iff.mpr ⟨hq0, hq1⟩
  simp [jsMod, this]

theorem normalizeAngle_of_nonneg_of_lt {a : ℚ} (h0 : 0 ≤ a) (ha : a < 360) :
    normalizeAngle a = a := by
  have h1 : jsMod a 360 = a := jsMod_of_nonneg_of_lt h0 ha
  rw [normalizeAngle, h1]
  have hq0 : (1 : ℚ) ≤ (a + 360) / 360 := by
    rw [le_div_iff₀ (by norm_num : (0:ℚ) < 360)]
    linarith
  have hq1 : (a + 360) / 360 < 2 := by
    rw [div_lt_iff₀ (by norm_num : (0:ℚ) < 360)]
    linarith
  have ht : jsTrunc ((a + 360) / 360) = 1 := by
    rw [jsTrunc, if_pos (by linarith)]
    apply Int.floor_eq_iff.mpr
    constructor <;> push_cast <;> linarith
  rw [jsMod, ht]
  ring

theorem clampCat_lo_le (c : Category) (x : ℚ) : catLo c ≤ clampCat c x := by
  cases c <;> simp [clampCat, catLo]

theorem clampCat_le_hi (c : Category) (x : ℚ) : clampCat c x ≤ catHi c := by
  cases c <;> simp [clampCat, catHi] <;> norm_num

/-! ## List helper lemmas -/

theorem getD_set_self (l : List ℚ) (i : ℕ) (b : ℚ) (h : i < l.length) :
    (l.set i b).getD i 0 = b := by
  induction l generalizing i with
  | nil => simp at h
  | cons x t ih =>
    cases i with
    | zero => simp
    | succ k => simpa using ih k (by simpa using h)

theorem getD_set_ne (l : List ℚ) (i j : ℕ) (b : ℚ) (h : i ≠ j) :
    (l.set i b).getD j 0 = l.getD j 0 := by
  induction l generalizing i j with
  | nil => simp
  | cons x t ih =>
    cases i with
    | zero =>
      cases j with
      | zero => exact absurd rfl h
      | succ k => simp
    | succ n =>
      cases j with
      | zero => simp
      | succ k => simpa using ih n k (by omega)

theorem getD_mem_of_lt (l : List ℚ) (i : ℕ) (h : i < l.length) :
    l.getD i 0 ∈ l := by
  induction l generalizing i with
  | nil => simp at h
  | cons x t ih =>
    cases i with
    | zero => simp
    | succ k =>
      exact List.mem_cons_of_mem _ (ih k (by simpa using h))

theorem two_le_count_of_lt (t : ℚ) (l : List ℚ) (i j : ℕ) (hij : i < j)
    (hj : j < l.length) (hi : l.getD i 0 = t) (hjv : l.getD j 0 = t) :
    2 ≤ l.count t := by
  induction l generalizing i j with
  | nil => simp at hj
  | cons x tl ih =>
    cases i with
    | zero =>
      have hx : x = t := by simpa using hi
      cases j with
      | zero => omega
      | succ k =>
        have hk : k < tl.length := by simpa using hj
        have hmem : t ∈ tl := by
          have := getD_mem_of_lt tl k hk
          rwa [show tl.getD k 0 = t from by simpa using hjv] at this
        have h1 : 1 ≤ tl.count t := List.count_pos_iff.mpr hmem
        have hb : (x == t) = true := by simp [hx]
        simp only [List.count_cons, hb, if_true]
        omega
    | succ n =>
      cases j with
      | zero => omega
      | succ k =>
        have := ih n k (by omega) (by simpa using hj) (by simpa using hi)
          (by simpa using hjv)
        rw [List.count_cons]
        split <;> omega

theorem two_le_count_of_ne (t : ℚ) (l : List ℚ) (i j : ℕ) (hij : i ≠ j)
    (hi : i < l.length) (hj : j < l.length)
    (hiv : l.getD i 0 = t) (hjv : l.getD j 0 = t) :
    2 ≤ l.count t := by
  rcases Nat.lt_or_ge i j with h | h
  · exact two_le_count_of_lt t l i j h hj hiv hjv
  · exact two_le_count_of_lt t l j i (by omega) hi hjv hiv

theorem cons_getD_eraseIdx_perm (l : List ℚ) (i : ℕ) (h : i < l.length) :
    (l.getD i 0 :: l.eraseIdx i).Perm l := by
  induction l generalizing i with
  | nil => simp at h
  | cons x t ih =>
    cases i with
    | zero => simp
    | succ k =>
      have hk : k < t.length := by simpa using h
      exact (List.Perm.swap x (t.getD k 0) (t.eraseIdx k)).trans
        (List.Perm.cons x (ih k hk))

theorem set_cons_perm (t : List ℚ) (m : ℕ) (x : ℚ) (h : m < t.length) :
    (t.getD m 0 :: t.set m x).Perm (x :: t) := by
  induction t generalizing m with
  | nil => simp at h
  | cons a tl ih =>
    cases m with
    | zero =>
      simpa using List.Perm.swap x a tl
    | succ k =>
      have hk : k < tl.length := by simpa using h
      exact ((List.Perm.swap a (tl.getD k 0) (tl.set k x)).trans
        (List.Perm.cons a (ih k hk))).trans (List.Perm.swap x a tl)

theorem swap_perm (l : List ℚ) (i j : ℕ) (hij : i ≠ j)
    (hi : i < l.length) (hj : j < l.length) :
    ((l.set i (l.getD j 0)).set j (l.getD i 0)).Perm l := by
  induction l generalizing i j with
  | nil => simp at hi
  | cons x t ih =>
    cases i with
    | zero =>
      cases j with
      | zero => exact absurd rfl hij
      | succ m =>
        have hm : m < t.length := by simpa using hj
        simpa using set_cons_perm t m x hm
    | succ n =>
      cases j with
      | zero =>
        have hn : n < t.length := by simpa using hi
        simpa using set_cons_perm t n x hn
      | succ m =>
        have := ih n m (by omega) (by simpa using hi) (by simpa using hj)
        simpa using List.Perm.cons x this

theorem shuffleWith_perm (ss : List ℕ) (l : List ℚ) :
    (shuffleWith ss l).Perm l := by
  induction ss generalizing l with
  | nil => cases l <;> simp [shuffleWith]
  | cons s ss ih =>
    cases l with
    | nil => simp [shuffleWith]
    | cons x xs =>
      rw [shuffleWith]
      have hlen : s % (x :: xs).length < (x :: xs).length :=
        Nat.mod_lt _ (by simp)
      exact (List.Perm.cons _ (ih _)).trans (cons_getD_eraseIdx_perm _ _ hlen)

/-! ## Generator structure lemmas -/

theorem chainGrow_spec (o : StimOracle) (c : Category) (v : ℚ) :
    ∀ (fuel step : ℕ) (opts : List ℚ), ∃ rest : List ℚ,
      chainGrow o c v fuel step opts = opts ++ rest ∧ rest.length = fuel ∧
      ∀ a ∈ rest, catLo c ≤ a ∧ a ≤ catHi c := by
  intro fuel
  induction fuel with
  | zero => intro step opts; exact ⟨[], by simp [chainGrow]⟩
  | succ n ih =>
    intro step opts
    rw [chainGrow]
    obtain ⟨rest, heq, hlen, hband⟩ := ih (step + 1)
      (opts ++ [clampCat c (normalizeAngle
        (opts.getD (o.pick step % opts.length) 0 + (if o.dir step then 1 else -1) * v))])
    refine ⟨_ :: rest, by simpa using heq, by simp [hlen], ?_⟩
    intro a ha
    rcases List.mem_cons.mp ha with rfl | ha
    · exact ⟨clampCat_lo_le _ _, clampCat_le_hi _ _⟩
    · exact hband a ha

theorem jsIndexOf_cons_self (t : ℚ) (l : List ℚ) : jsIndexOf t (t :: l) = 0 := by
  simp [jsIndexOf]

theorem jsIndexOf_neg_one (t : ℚ) (l : List ℚ) (h : t ∉ l) : jsIndexOf t l = -1 := by
  induction l with
  | nil => rfl
  | cons x xs ih =>
    rw [jsIndexOf]
    rw [if_neg (by rintro rfl; exact h (List.mem_cons_self _ _))]
    simp [ih (fun hm => h (List.mem_cons_of_mem _ hm))]

theorem jsIndexOf_spec (t : ℚ) (l : List ℚ) (h : t ∈ l) :
    0 ≤ jsIndexOf t l ∧ (jsIndexOf t l).toNat < l.length ∧
      l.getD (jsIndexOf t l).toNat 0 = t ∧
      ∀ j < (jsIndexOf t l).toNat, l.getD j 0 ≠ t := by
  induction l with
  | nil => simp at h
  | cons x xs ih =>
    by_cases hx : x = t
    · subst hx
      refine ⟨by simp [jsIndexOf_cons_self], ?_, ?_, ?_⟩ <;>
        simp [jsIndexOf_cons_self]
    · have hm : t ∈ xs := by
        rcases List.mem_cons.mp h with rfl | hm
        · exact absurd rfl hx
        · exact hm
      obtain ⟨h0, hlt, hat, hbefore⟩ := ih hm
      have hform : jsIndexOf t (x :: xs) = jsIndexOf t xs + 1 := by
        rw [jsIndexOf, if_neg hx]
        simp only [if_neg (by omega : ¬ jsIndexOf t xs < 0)]
      have htn : (jsIndexOf t (x :: xs)).toNat = (jsIndexOf t xs).toNat + 1 := by
        rw [hform]; omega
      refine ⟨by rw [hform]; omega, by simp [htn]; omega, ?_, ?_⟩
      · rw [htn]; simpa using hat
      · intro j hj
        rw [htn] at hj
        cases j with
        | zero => simpa using hx
        | succ k => simpa using hbefore k (by omega)

theorem jsIndexOf_eq_of (t : ℚ) (l : List ℚ) (k : ℕ) (hk : k < l.length)
    (hbefore : ∀ j < k, l.getD j 0 ≠ t) (hat : l.getD k 0 = t) :
    jsIndexOf t l = k := by
  induction l generalizing k with
  | nil => simp at hk
  | cons x xs ih =>
    cases k with
    | zero =>
      have : x = t := by simpa using hat
      simp [this, jsIndexOf_cons_self]
    | succ m =>
      have hx : x ≠ t := by simpa using hbefore 0 (by omega)
      have hrec : jsIndexOf t xs = m :=
        ih m (by simpa using hk) (fun j hj => by simpa using hbefore (j + 1) (by omega))
          (by simpa using hat)
      rw [jsIndexOf, if_neg hx]
      simp only [hrec]
      rw [if_neg (by omega)]
      push_cast
      ring

theorem repairStep_of_head (o : StimOracle) (t : ℚ) (c : Category) (v : ℚ)
    (step : ℕ) (l : List ℚ) (h : jsIndexOf t l = 0) :
    repairStep o t c v step l = l := by
  rw [repairStep]
  simp only [h]
  norm_num

theorem repairLoop_of_head (o : StimOracle) (t : ℚ) (c : Category) (v : ℚ) :
    ∀ (n step : ℕ) (l : List ℚ), jsIndexOf t l = 0 →
      repairLoop o t c v n step l = l := by
  intro n
  induction n with
  | zero => intro step l _; rfl
  | succ m ih =>
    intro step l h
    rw [repairLoop, repairStep_of_head o t c v step l h]
    exact ih (step + 1) l h

theorem genShuffled_spec (o : StimOracle) (s : Settings) (i : ℕ) :
    ∃ rest : List ℚ,
      (genShuffled o s i).Perm (genTarget o s i :: rest) ∧
      rest.length = s.anglesPerQuadrant * 4 - 1 ∧
      ∀ a ∈ rest, catLo (getAngleCategory (genTarget o s i)) ≤ a ∧
        a ≤ catHi (getAngleCategory (genTarget o s i)) := by
  obtain ⟨rest, heq, hlen, hband⟩ := chainGrow_spec o
    (getAngleCategory (genTarget o s i)) s.degreeVariance
    (s.anglesPerQuadrant * 4 - 1) 0 [genTarget o s i]
  refine ⟨rest, ?_, hlen, hband⟩
  rw [genShuffled]
  simp only [heq, List.singleton_append]
  have hhead : jsIndexOf (genTarget o s i) (genTarget o s i :: rest) = 0 :=
    jsIndexOf_cons_self _ _
  rw [repairLoop_of_head _ _ _ _ _ _ _ hhead]
  have := shuffleWith_perm o.shuffle (genTarget o s i :: rest)
  split
  · exact this
  · exact this

/-- Shared index facts for the swap branch of `placeQuadrant`. -/
theorem placeQuadrant_indices (sp apq cq : ℕ) (len : ℕ) (ti : ℤ)
    (hcq1 : 1 ≤ cq) (hcq4 : cq ≤ 4) (hapq : 1 ≤ apq) (hlen : len = apq * 4)
    (hti0 : 0 ≤ ti)
    (hout : ti < ((cq : ℤ) - 1) * apq ∨ ((cq : ℤ) - 1) * apq + apq ≤ ti) :
    0 ≤ ((cq : ℤ) - 1) * apq + (sp % apq : ℕ) ∧
    (((cq : ℤ) - 1) * apq + (sp % apq : ℕ)).toNat < len ∧
    ti.toNat ≠ (((cq : ℤ) - 1) * apq + (sp % apq : ℕ)).toNat := by
  have hmod : sp % apq < apq := Nat.mod_lt _ (by omega)
  have hmodz : ((sp % apq : ℕ) : ℤ) < (apq : ℤ) := by exact_mod_cast hmod
  have hmodz0 : (0 : ℤ) ≤ ((sp % apq : ℕ) : ℤ) := by positivity
  have hcz : (1 : ℤ) ≤ (cq : ℤ) := by exact_mod_cast hcq1
  have hcz4 : (cq : ℤ) ≤ 4 := by exact_mod_cast hcq4
  have haz : (0 : ℤ) ≤ (apq : ℤ) := by positivity
  have hS0 : (0 : ℤ) ≤ ((cq : ℤ) - 1) * apq := mul_nonneg (by linarith) haz
  have hr0 : 0 ≤ ((cq : ℤ) - 1) * apq + (sp % apq : ℕ) := by linarith
  have hcha : (cq : ℤ) * apq ≤ 4 * apq :=
    mul_le_mul_of_nonneg_right hcz4 haz
  have hexp : ((cq : ℤ) - 1) * apq = (cq : ℤ) * apq - apq := by ring
  have hlenz : (len : ℤ) = (apq : ℤ) * 4 := by exact_mod_cast congrArg Nat.cast hlen
  have hrlt : ((cq : ℤ) - 1) * apq + (sp % apq : ℕ) < (len : ℤ) := by
    rw [hexp, hlenz]
    linarith
  refine ⟨hr0, by omega, ?_⟩
  intro h
  have h1 : ((ti.toNat : ℤ)) = ti := Int.toNat_of_nonneg hti0
  have h2 : (((((cq : ℤ) - 1) * apq + (sp % apq : ℕ)).toNat : ℤ))
      = ((cq : ℤ) - 1) * apq + (sp % apq : ℕ) := Int.toNat_of_nonneg hr0
  have heq : ti = ((cq : ℤ) - 1) * apq + (sp % apq : ℕ) := by
    rw [← h1, ← h2, h]
  rcases hout with hlt | hge
  · rw [heq] at hlt
    linarith
  · rw [heq] at hge
    linarith

theorem placeQuadrant_perm (sp apq cq : ℕ) (t : ℚ) (l : List ℚ)
    (hcq1 : 1 ≤ cq) (hcq4 : cq ≤ 4) (hapq : 1 ≤ apq)
    (hlen : l.length = apq * 4) (hmem : t ∈ l) :
    (placeQuadrant sp apq cq t l).Perm l := by
  obtain ⟨hti0, htn, _, _⟩ := jsIndexOf_spec t l hmem
  simp only [placeQuadrant]
  split
  · next hout =>
    obtain ⟨_, hrn, hne⟩ := placeQuadrant_indices sp apq cq l.length
      (jsIndexOf t l) hcq1 hcq4 hapq hlen hti0 (by
        rcases hout with h | h
        · exact Or.inl h
        · exact Or.inr h)
    exact swap_perm l (jsIndexOf t l).toNat
      ((((cq : ℤ) - 1) * apq + (sp % apq : ℕ)).toNat) hne htn hrn
  · exact List.Perm.refl l

/-- When the pre-placement list contains the target exactly once,
`placeQuadrant` leaves its first (unique) index inside the band
`[(cq-1)*apq, cq*apq)`. -/
theorem placeQuadrant_band (sp apq cq : ℕ) (t : ℚ) (l : List ℚ)
    (hcq1 : 1 ≤ cq) (hcq4 : cq ≤ 4) (hapq : 1 ≤ apq)
    (hlen : l.length = apq * 4) (hcount : l.count t = 1) :
    ((cq : ℤ) - 1) * apq ≤ jsIndexOf t (placeQuadrant sp apq cq t l) ∧
    jsIndexOf t (placeQuadrant sp apq cq t l) < (cq : ℤ) * apq := by
  have hmem : t ∈ l := List.count_pos_iff.mp (by omega)
  obtain ⟨hti0, htn, hat, _⟩ := jsIndexOf_spec t l hmem
  have huniq : ∀ j < l.length, j ≠ (jsIndexOf t l).toNat → l.getD j 0 ≠ t := by
    intro j hj hne hval
    have := two_le_count_of_ne t l j (jsIndexOf t l).toNat hne hj htn hval hat
    omega
  have htiz : (((jsIndexOf t l).toNat : ℤ)) = jsIndexOf t l :=
    Int.toNat_of_nonneg hti0
  simp only [placeQuadrant]
  split
  · next hout =>
    obtain ⟨hr0, hrn, hne⟩ := placeQuadrant_indices sp apq cq l.length
      (jsIndexOf t l) hcq1 hcq4 hapq hlen hti0 (by
        rcases hout with h | h
        · exact Or.inl h
        · exact Or.inr h)
    set tn := (jsIndexOf t l).toNat with htn_def
    set rz : ℤ := ((cq : ℤ) - 1) * apq + (sp % apq : ℕ) with hrz_def
    set rn := rz.toNat with hrn_def
    have hrzz : ((rn : ℤ)) = rz := Int.toNat_of_nonneg hr0
    have hb_ne : l.getD rn 0 ≠ t := huniq rn hrn (fun h => hne h.symm)
    set ys := (l.set tn (l.getD rn 0)).set rn (l.getD tn 0) with hys
    have hyslen : ys.length = l.length := by simp [hys]
    have hat' : ys.getD rn 0 = l.getD tn 0 := by
      rw [hys]
      exact getD_set_self _ rn _ (by simpa using hrn)
    have hbefore : ∀ j < rn, ys.getD j 0 ≠ t := by
      intro j hj
      have hjne : rn ≠ j := by omega
      rw [hys, getD_set_ne _ _ _ _ hjne]
      by_cases hjt : j = tn
      · subst hjt
        rw [getD_set_self _ _ _ htn]
        exact hb_ne
      · rw [getD_set_ne _ _ _ _ (fun h => hjt h.symm)]
        exact huniq j (by omega) hjt
    have hidx : jsIndexOf t ys = rn := by
      apply jsIndexOf_eq_of t ys rn (by omega)
      · exact hbefore
      · rw [hat', hat]
    rw [hidx, hrzz, hrz_def]
    have hmod : sp % apq < apq := Nat.mod_lt _ (by omega)
    have hmodz : ((sp % apq : ℕ) : ℤ) < (apq : ℤ) := by exact_mod_cast hmod
    have hmodz0 : (0 : ℤ) ≤ ((sp % apq : ℕ) : ℤ) := by positivity
    constructor
    · linarith
    · have : ((cq : ℤ) - 1) * apq + (apq : ℤ) = (cq : ℤ) * apq := by ring
      linarith
  · next hout =>
    push_neg at hout
    obtain ⟨hge, hlt⟩ := hout
    refine ⟨by linarith, ?_⟩
    have : ((cq : ℤ) - 1) * apq + (apq : ℤ) = (cq : ℤ) * apq := by ring
    linarith

/-- Structural invariants of one generated stimulus (for validated
configurations): the options list has length `anglesPerQuadrant * 4`,
contains the target at least once, and every entry is the target or
lies in the clamp sub-range of the target's category. -/
theorem generateStimulus_invariants (o : StimOracle) (s : Settings) (i : ℕ)
    (hapq : 1 ≤ s.anglesPerQuadrant)
    (hcq1 : 1 ≤ s.correctQuadrant) (hcq4 : s.correctQuadrant ≤ 4) :
    (generateStimulus o s i).options.length = s.anglesPerQuadrant * 4 ∧
    1 ≤ (generateStimulus o s i).options.count (generateStimulus o s i).targetAngle ∧
    ∀ a ∈ (generateStimulus o s i).options,
      a = (generateStimulus o s i).targetAngle ∨
      (catLo (getAngleCategory (generateStimulus o s i).targetAngle) ≤ a ∧
       a ≤ catHi (getAngleCategory (generateStimulus o s i).targetAngle)) := by
  obtain ⟨rest, hperm, hlen, hband⟩ := genShuffled_spec o s i
  have htarget : (generateStimulus o s i).targetAngle = genTarget o s i := rfl
  have hglen : (genShuffled o s i).length = s.anglesPerQuadrant * 4 := by
    rw [hperm.length_eq]
    simp only [List.length_cons, hlen]
    omega
  have hgcount : 1 ≤ (genShuffled o s i).count (genTarget o s i) := by
    rw [hperm.count_eq]
    simp [List.count_cons]
  have hgmem : ∀ a ∈ genShuffled o s i, a = genTarget o s i ∨
      (catLo (getAngleCategory (genTarget o s i)) ≤ a ∧
       a ≤ catHi (getAngleCategory (genTarget o s i))) := by
    intro a ha
    have := hperm.mem_iff.mp ha
    rcases List.mem_cons.mp this with rfl | hr
    · exact Or.inl rfl
    · exact Or.inr (hband a hr)
  have hmem : genTarget o s i ∈ genShuffled o s i :=
    List.count_pos_iff.mp (by omega)
  have hopts : (generateStimulus o s i).options =
      (if s.useCorrectQuadrant then
        placeQuadrant o.swapPick s.anglesPerQuadrant s.correctQuadrant
          (genTarget o s i) (genShuffled o s i)
      else genShuffled o s i) := rfl
  rw [htarget, hopts]
  split
  · have hp := placeQuadrant_perm o.swapPick s.anglesPerQuadrant s.correctQuadrant
      (genTarget o s i) (genShuffled o s i) hcq1 hcq4 hapq hglen hmem
    refine ⟨by rw [hp.length_eq]; exact hglen, by rw [hp.count_eq]; exact hgcount, ?_⟩
    intro a ha
    exact hgmem a (hp.mem_iff.mp ha)
  · exact ⟨hglen, hgcount, hgmem⟩

theorem genShuffled_basic (o : StimOracle) (s : Settings) (i : ℕ)
    (hapq : 1 ≤ s.anglesPerQuadrant) :
    (genShuffled o s i).length = s.anglesPerQuadrant * 4 ∧
    1 ≤ (genShuffled o s i).count (genTarget o s i) := by
  obtain ⟨rest, hperm, hlen, _⟩ := genShuffled_spec o s i
  constructor
  · rw [hperm.length_eq]
    simp only [List.length_cons, hlen]
    omega
  · rw [hperm.count_eq]
    simp [List.count_cons]

theorem generateStimuli_getD (o : ℕ → StimOracle) (s : Settings) (i : ℕ)
    (hi : i < s.stimuliCount.toNat) :
    (generateStimuli o s).getD i default = generateStimulus (o i) s i := by
  simp [generateStimuli, List.getD_eq_getElem?_getD, List.getElem?_range hi]

/-! ## Concrete fixtures for the closed theorems -/

/-- A randomness source whose every draw picks index 0, direction `+1`,
an identity shuffle and target fill `0`. -/
def alwaysPlusOracle : StimOracle :=
  ⟨fun _ => 0, fun _ => true, fun _ => 0, fun _ => true, [], 0, 0⟩

/-- Like `alwaysPlusOracle` but the random target draw is `17`
(so a missing/zero target slot becomes `170`). -/
def rand17Oracle : StimOracle :=
  ⟨fun _ => 0, fun _ => true, fun _ => 0, fun _ => true, [], 17, 0⟩

/-- One stimulus, one angle per quadrant, variance 7.5, target 80:
the chain saturates at the clamp bound 80 and duplicates the target. -/
def dupSettings : Settings := ⟨1, 1, 1, false, 15/2, [80]⟩

/-- One stimulus, target 90 (right category). -/
def rightSettings : Settings := ⟨1, 1, 1, false, 15/2, [90]⟩

/-- `dupSettings` with quadrant placement into quadrant 4. -/
def dupQuadSettings : Settings := ⟨1, 1, 4, true, 15/2, [80]⟩

/-- Target 30 with quadrant placement into quadrant 4 (unique target). -/
def swapQuadSettings : Settings := ⟨1, 1, 4, true, 15/2, [30]⟩

/-- A present target slot holding `0`. -/
def zeroSlotSettings : Settings := ⟨1, 1, 1, false, 15/2, [0]⟩

/-- Zero stimuli requested. -/
def emptySettings : Settings := ⟨0, 1, 1, false, 15/2, []⟩

/-! ## Claim theorems: stimulus generator -/

/-- C1.  With `anglesPerQuadrant = 1`, `degreeVariance = 7.5`,
`targetAngles = [80]` and randomness always stepping `+variance`, the
generated options list is `[80, 80, 80, 80]`: its length is
`anglesPerQuadrant*4 = 4` as claimed, but it contains the target
angle four times, not exactly once — the uniqueness-repair loop never
fires because the first occurrence of the target is always at index 0
and the code only repairs occurrences at positive indices. -/
theorem claim1_duplicate_target_eval :
    generateStimuli (fun _ => alwaysPlusOracle) dupSettings =
      [{ targetAngle := 80, options := [80, 80, 80, 80] }] ∧
    ([80, 80, 80, 80] : List ℚ).count 80 = 4 ∧
    dupSettings.anglesPerQuadrant * 4 = 4 := by
  refine ⟨by with_unfolding_all rfl, by with_unfolding_all decide, rfl⟩

/-- C2, counterexample.  For target 90 (category right) and variance
7.5, the generator emits the full stimulus
`⟨90, [90, 97.5, 97.5, 97.5]⟩`: the option 97.5 has category obtuse
while the target's category is right — the clamp keeps options inside
the sub-range `[80,100]`, not inside the right category `{90}`. -/
theorem claim2_category_counterexample :
    generateStimuli (fun _ => alwaysPlusOracle) rightSettings =
      [{ targetAngle := 90, options := [90, 195/2, 195/2, 195/2] }] ∧
    (195/2 : ℚ) ∈ [(90 : ℚ), 195/2, 195/2, 195/2] ∧
    getAngleCategory (195/2) = .obtuse ∧
    getAngleCategory 90 = .right ∧
    getAngleCategory (195/2 : ℚ) ≠ getAngleCategory (90 : ℚ) := by
  refine ⟨by with_unfolding_all rfl, by with_unfolding_all decide,
    by with_unfolding_all rfl, by with_unfolding_all rfl,
    by with_unfolding_all decide⟩

theorem getAngleCategory_eq_acute {a : ℚ} (h0 : 0 ≤ a) (h1 : a < 90) :
    getAngleCategory a = .acute := by
  simp only [getAngleCategory]
  rw [jsMod_of_nonneg_of_lt h0 (by linarith : a < 180)]
  rw [if_neg (by intro h; rw [h] at h1; exact absurd h1 (lt_irrefl _))]
  rw [if_pos h1]

theorem getAngleCategory_eq_obtuse {a : ℚ} (h0 : 90 < a) (h1 : a < 180) :
    getAngleCategory a = .obtuse := by
  simp only [getAngleCategory]
  rw [jsMod_of_nonneg_of_lt (by linarith : (0:ℚ) ≤ a) h1]
  rw [if_neg (by intro h; rw [h] at h0; exact absurd h0 (lt_irrefl _))]
  rw [if_neg (by linarith)]

theorem getAngleCategory_ninety : getAngleCategory (90 : ℚ) = .right := by
  simp only [getAngleCategory]
  rw [jsMod_of_nonneg_of_lt (by norm_num : (0:ℚ) ≤ 90) (by norm_num : (90:ℚ) < 180)]
  rw [if_pos rfl]

/-- C2, amended.  Every generated option either equals the target
angle or lies in the clamp sub-range of the target's category
(acute → [0,80], right → [80,100], obtuse → [100,180]); consequently
`category(option) = category(targetAngle)` holds with exactly two
exceptions, which the clamp forces: an obtuse-category target can
produce the endpoint option 180 (whose `mod 180` category is acute),
and a right-category target produces options anywhere in `[80,100]`,
which are only right-category at exactly 90. -/
theorem claim2_options_category (o : ℕ → StimOracle) (s : Settings)
    (hapq : 1 ≤ s.anglesPerQuadrant) (hcq1 : 1 ≤ s.correctQuadrant)
    (hcq4 : s.correctQuadrant ≤ 4) (st : Stimulus)
    (hst : st ∈ generateStimuli o s) (a : ℚ) (ha : a ∈ st.options) :
    (a = st.targetAngle ∨
      (catLo (getAngleCategory st.targetAngle) ≤ a ∧
       a ≤ catHi (getAngleCategory st.targetAngle))) ∧
    (getAngleCategory a = getAngleCategory st.targetAngle ∨
     (getAngleCategory st.targetAngle = .obtuse ∧ a = 180) ∨
     (getAngleCategory st.targetAngle = .right ∧ 80 ≤ a ∧ a ≤ 100 ∧ a ≠ 90)) := by
  obtain ⟨i, _, rfl⟩ := List.mem_map.mp hst
  have hband := (generateStimulus_invariants (o i) s i hapq hcq1 hcq4).2.2 a ha
  refine ⟨hband, ?_⟩
  rcases hband with rfl | ⟨hlo, hhi⟩
  · exact Or.inl rfl
  · cases hcat : getAngleCategory (generateStimulus (o i) s i).targetAngle with
    | acute =>
      rw [hcat] at hlo hhi
      simp only [catLo, catHi] at hlo hhi
      exact Or.inl (getAngleCategory_eq_acute hlo (by linarith))
    | obtuse =>
      rw [hcat] at hlo hhi
      simp only [catLo, catHi] at hlo hhi
      by_cases h180 : a = 180
      · exact Or.inr (Or.inl ⟨rfl, h180⟩)
      · exact Or.inl
          (getAngleCategory_eq_obtuse (by linarith) (lt_of_le_of_ne hhi h180))
    | right =>
      rw [hcat] at hlo hhi
      simp only [catLo, catHi] at hlo hhi
      by_cases h90 : a = 90
      · rw [h90]
        exact Or.inl getAngleCategory_ninety
      · exact Or.inr (Or.inr ⟨rfl, hlo, hhi, h90⟩)

theorem claim2_band_witness :
    ((195/2 : ℚ) = (90 : ℚ) ∨
      (catLo (getAngleCategory (90 : ℚ)) ≤ 195/2 ∧
       (195/2 : ℚ) ≤ catHi (getAngleCategory (90 : ℚ)))) ∧
    (getAngleCategory (195/2 : ℚ) = getAngleCategory (90 : ℚ) ∨
     (getAngleCategory (90 : ℚ) = .obtuse ∧ (195/2 : ℚ) = 180) ∨
     (getAngleCategory (90 : ℚ) = .right ∧ (80 : ℚ) ≤ 195/2 ∧
      (195/2 : ℚ) ≤ 100 ∧ (195/2 : ℚ) ≠ 90)) :=
  claim2_options_category (fun _ => alwaysPlusOracle) rightSettings
    (by decide) (by decide) (by decide)
    ⟨90, [90, 195/2, 195/2, 195/2]⟩ (by with_unfolding_all decide)
    (195/2) (by with_unfolding_all decide)

/-- C3.  `generateStimuli` always returns `stimuliCount.toNat`
stimuli: exactly `stimuliCount` of them when `stimuliCount ≥ 1`, and
the empty sequence when `stimuliCount ≤ 0`; being a total function, it
raises nothing. -/
theorem claim3_stimuli_count (o : ℕ → StimOracle) (s : Settings) :
    (generateStimuli o s).length = s.stimuliCount.toNat ∧
    (1 ≤ s.stimuliCount → ((generateStimuli o s).length : ℤ) = s.stimuliCount) ∧
    (s.stimuliCount ≤ 0 → generateStimuli o s = []) := by
  refine ⟨by simp [generateStimuli], ?_, ?_⟩
  · intro h
    simp only [generateStimuli, List.length_map, List.length_range]
    omega
  · intro h
    simp [generateStimuli, Int.toNat_of_nonpos h]

theorem claim3_stimuli_count_witness :
    ((generateStimuli (fun _ => alwaysPlusOracle) dupSettings).length : ℤ) =
      dupSettings.stimuliCount ∧
    generateStimuli (fun _ => alwaysPlusOracle) emptySettings = [] :=
  ⟨(claim3_stimuli_count (fun _ => alwaysPlusOracle) dupSettings).2.1 (by decide),
   (claim3_stimuli_count (fun _ => alwaysPlusOracle) emptySettings).2.2 (by decide)⟩

/-- C4, counterexample.  With quadrant placement into quadrant 4 and
the duplicate-target options `[80, 80, 80, 80]`, the first index of
the target in the final options list is 0, strictly below the band
start `(correctQuadrant-1)*anglesPerQuadrant = 3`. -/
theorem claim4_band_counterexample :
    dupQuadSettings.useCorrectQuadrant = true ∧
    jsIndexOf
        ((generateStimuli (fun _ => alwaysPlusOracle) dupQuadSettings).getD 0
          default).targetAngle
        ((generateStimuli (fun _ => alwaysPlusOracle) dupQuadSettings).getD 0
          default).options <
      ((dupQuadSettings.correctQuadrant : ℤ) - 1) * dupQuadSettings.anglesPerQuadrant := by
  refine ⟨rfl, by with_unfolding_all decide⟩

/-- C4, amended.  Provided the final options list contains the target
angle exactly once, its (unique) index lies in the claimed band
`[(correctQuadrant-1)*anglesPerQuadrant, correctQuadrant*anglesPerQuadrant)`
whenever `useCorrectQuadrant` is set (and the configuration is
validated). -/
theorem claim4_band_when_unique (o : ℕ → StimOracle) (s : Settings)
    (hapq : 1 ≤ s.anglesPerQuadrant) (hcq1 : 1 ≤ s.correctQuadrant)
    (hcq4 : s.correctQuadrant ≤ 4) (huse : s.useCorrectQuadrant = true)
    (st : Stimulus) (hst : st ∈ generateStimuli o s)
    (hone : st.options.count st.targetAngle = 1) :
    ((s.correctQuadrant : ℤ) - 1) * s.anglesPerQuadrant ≤
      jsIndexOf st.targetAngle st.options ∧
    jsIndexOf st.targetAngle st.options <
      (s.correctQuadrant : ℤ) * s.anglesPerQuadrant := by
  obtain ⟨i, _, rfl⟩ := List.mem_map.mp hst
  obtain ⟨hglen, hgcount⟩ := genShuffled_basic (o i) s i hapq
  have hmem : genTarget (o i) s i ∈ genShuffled (o i) s i :=
    List.count_pos_iff.mp (by omega)
  have htarget : (generateStimulus (o i) s i).targetAngle = genTarget (o i) s i := rfl
  have hopts : (generateStimulus (o i) s i).options =
      placeQuadrant (o i).swapPick s.anglesPerQuadrant s.correctQuadrant
        (genTarget (o i) s i) (genShuffled (o i) s i) := by
    simp [generateStimulus, huse]
  have hp := placeQuadrant_perm (o i).swapPick s.anglesPerQuadrant s.correctQuadrant
    (genTarget (o i) s i) (genShuffled (o i) s i) hcq1 hcq4 hapq hglen hmem
  have hone' : (genShuffled (o i) s i).count (genTarget (o i) s i) = 1 := by
    rw [← hp.count_eq]
    rw [htarget, hopts] at hone
    exact hone
  rw [htarget, hopts]
  exact placeQuadrant_band (o i).swapPick s.anglesPerQuadrant s.correctQuadrant
    (genTarget (o i) s i) (genShuffled (o i) s i) hcq1 hcq4 hapq hglen hone'

theorem claim4_band_witness :
    ((swapQuadSettings.correctQuadrant : ℤ) - 1) * swapQuadSettings.anglesPerQuadrant ≤
      jsIndexOf (30 : ℚ) [75/2, 75/2, 75/2, 30] ∧
    jsIndexOf (30 : ℚ) [75/2, 75/2, 75/2, 30] <
      (swapQuadSettings.correctQuadrant : ℤ) * swapQuadSettings.anglesPerQuadrant :=
  claim4_band_when_unique (fun _ => alwaysPlusOracle) swapQuadSettings
    (by decide) (by decide) (by decide) rfl
    ⟨30, [75/2, 75/2, 75/2, 30]⟩ (by with_unfolding_all decide)
    (by with_unfolding_all decide)

/-- C5, counterexample.  `targetAngles = [0]` has a present slot with
value 0, yet the emitted target is the random multiple of ten `170`,
not `normalizeAngle 0 = 0`: the `||` fallback treats a present `0`
slot as missing. -/
theorem claim5_zero_slot_counterexample :
    zeroSlotSettings.targetAngles.getD 0 0 = 0 ∧
    0 < zeroSlotSettings.targetAngles.length ∧
    ((generateStimuli (fun _ => rand17Oracle) zeroSlotSettings).getD 0
      default).targetAngle = 170 ∧
    normalizeAngle (zeroSlotSettings.targetAngles.getD 0 0) ≠ 170 := by
  refine ⟨rfl, by decide, by with_unfolding_all rfl, by with_unfolding_all decide⟩

/-- C5, amended.  A present *nonzero* slot of `targetAngles` is used
(normalized) as the emitted target; a missing slot — or a present slot
equal to 0, which the `||` fallback cannot distinguish from a missing
one — is replaced by a random multiple of 10 below 360. -/
theorem claim5_target_resolution (o : ℕ → StimOracle) (s : Settings) (i : ℕ)
    (hi : i < s.stimuliCount.toNat) :
    (s.targetAngles.getD i 0 ≠ 0 →
      ((generateStimuli o s).getD i default).targetAngle =
        normalizeAngle (s.targetAngles.getD i 0)) ∧
    (s.targetAngles.getD i 0 = 0 →
      ∃ k : ℕ, k < 36 ∧
        ((generateStimuli o s).getD i default).targetAngle = 10 * k) := by
  rw [generateStimuli_getD o s i hi]
  have htarget : (generateStimulus (o i) s i).targetAngle = genTarget (o i) s i := rfl
  rw [htarget, genTarget]
  constructor
  · intro h
    simp only [if_neg h]
  · intro h
    refine ⟨(o i).randTen % 36, Nat.mod_lt _ (by omega), ?_⟩
    simp only [if_pos h]
    have hk : ((((o i).randTen % 36) * 10 : ℕ) : ℚ) = 10 * ((o i).randTen % 36 : ℕ) := by
      push_cast
      ring
    rw [hk] at *
    rw [normalizeAngle_of_nonneg_of_lt (by positivity) ?_]
    have h36 : ((o i).randTen % 36 : ℕ) < 36 := Nat.mod_lt _ (by omega)
    have : (((o i).randTen % 36 : ℕ) : ℚ) < 36 := by exact_mod_cast h36
    linarith

theorem claim5_target_resolution_witness :
    ((generateStimuli (fun _ => alwaysPlusOracle) dupSettings).getD 0
      default).targetAngle =
      normalizeAngle (dupSettings.targetAngles.getD 0 0) :=
  (claim5_target_resolution (fun _ => alwaysPlusOracle) dupSettings 0
    (by decide)).1 (by decide)

/-! ## Hit-test lemmas -/

theorem pickCloser_cases (x y : ℚ) (c a : Line) :
    pickCloser x y c a = a ∨ pickCloser x y c a = c := by
  rw [pickCloser]
  split
  · exact Or.inl rfl
  · exact Or.inr rfl

theorem pickCloser_le_left (x y : ℚ) (c a : Line) :
    anchorDistSq x y (pickCloser x y c a) ≤ anchorDistSq x y c := by
  rw [pickCloser]
  split
  · next h => exact le_of_lt h
  · exact le_refl _

theorem pickCloser_le_right (x y : ℚ) (c a : Line) :
    anchorDistSq x y (pickCloser x y c a) ≤ anchorDistSq x y a := by
  rw [pickCloser]
  split
  · exact le_refl _
  · next h => exact le_of_not_lt h

theorem foldl_pickCloser_mem (x y : ℚ) (cs : List Line) :
    ∀ c : Line, cs.foldl (pickCloser x y) c ∈ c :: cs := by
  induction cs with
  | nil => intro c; simp
  | cons a cs ih =>
    intro c
    rw [List.foldl_cons]
    rcases pickCloser_cases x y c a with h2 | h2 <;> rw [h2]
    · exact List.mem_cons_of_mem c (ih a)
    · rcases List.mem_cons.mp (ih c) with h1 | h1
      · rw [h1]
        exact List.mem_cons_self _ _
      · exact List.mem_cons_of_mem _ (List.mem_cons_of_mem _ h1)

theorem foldl_pickCloser_le (x y : ℚ) (cs : List Line) :
    ∀ c : Line, ∀ z ∈ c :: cs,
      anchorDistSq x y (cs.foldl (pickCloser x y) c) ≤ anchorDistSq x y z := by
  induction cs with
  | nil =>
    intro c z hz
    have hzc : z = c := by simpa using hz
    rw [hzc]
    exact le_refl _
  | cons a cs ih =>
    intro c z hz
    rw [List.foldl_cons]
    have hbase : anchorDistSq x y (cs.foldl (pickCloser x y) (pickCloser x y c a)) ≤
        anchorDistSq x y (pickCloser x y c a) :=
      ih (pickCloser x y c a) _ (List.mem_cons_self _ _)
    rcases List.mem_cons.mp hz with h1 | h1
    · rw [h1]
      exact le_trans hbase (pickCloser_le_left x y c a)
    · rcases List.mem_cons.mp h1 with h2 | h2
      · rw [h2]
        exact le_trans hbase (pickCloser_le_right x y c a)
      · exact ih (pickCloser x y c a) z (List.mem_cons_of_mem _ h2)

/-! ## Claim theorems: hit testing, events, paint -/

/-- C6.  The click/hover hit test returns a line exactly when some
line passes `isPointNearLine` (perpendicular distance ≤ 5 to the
infinite line through anchor and capped, clamped endpoint, and inside
the 10-unit-expanded bounding box), and the returned line is a
candidate whose anchor is closest to the pointer among all
candidates. -/
theorem claim6_hit_test (cosd sind : ℚ → ℚ) (size : ℚ) (lines : List Line)
    (x y : ℚ) :
    (∀ l, hitTest cosd sind size lines x y = some l →
      l ∈ lines ∧ isPointNearLine cosd sind size x y l = true ∧
      ∀ l' ∈ lines, isPointNearLine cosd sind size x y l' = true →
        anchorDistSq x y l ≤ anchorDistSq x y l') ∧
    (hitTest cosd sind size lines x y = none ↔
      ∀ l ∈ lines, isPointNearLine cosd sind size x y l = false) := by
  constructor
  · intro l hl
    cases hF : lines.filter (isPointNearLine cosd sind size x y) with
    | nil =>
      rw [hitTest, hF] at hl
      exact absurd hl (by simp)
    | cons c cs =>
      rw [hitTest, hF] at hl
      have hfold : cs.foldl (pickCloser x y) c = l := by
        simpa using hl
      have hmem : l ∈ lines.filter (isPointNearLine cosd sind size x y) := by
        rw [hF, ← hfold]
        exact foldl_pickCloser_mem x y cs c
      obtain ⟨hmem', hpred⟩ := List.mem_filter.mp hmem
      refine ⟨hmem', hpred, ?_⟩
      intro l' hl' hpred'
      have hmem2 : l' ∈ lines.filter (isPointNearLine cosd sind size x y) :=
        List.mem_filter.mpr ⟨hl', hpred'⟩
      rw [hF] at hmem2
      rw [← hfold]
      exact foldl_pickCloser_le x y cs c l' hmem2
  · constructor
    · intro hnone l hl
      cases hF : lines.filter (isPointNearLine cosd sind size x y) with
      | nil =>
        by_contra hpred
        have : l ∈ lines.filter (isPointNearLine cosd sind size x y) :=
          List.mem_filter.mpr ⟨hl, by simpa using hpred⟩
        rw [hF] at this
        simp at this
      | cons c cs =>
        rw [hitTest, hF] at hnone
        exact absurd hnone (by simp)
    · intro hall
      have hF : lines.filter (isPointNearLine cosd sind size x y) = [] := by
        rw [List.filter_eq_nil_iff]
        intro l hl
        simp [hall l hl]
      rw [hitTest, hF]

/-- The line used by the hit-test witness: anchored at the canvas
center with angle 0. -/
def anchorLine : Line := ⟨0, 0, 0, (200, 200)⟩

theorem claim6_hit_test_witness :
    isPointNearLine (fun _ => 1) (fun _ => 0) 400 200 200 anchorLine = true :=
  ((claim6_hit_test (fun _ => 1) (fun _ => 0) 400 [anchorLine] 200 200).1
    anchorLine (by with_unfolding_all rfl)).2.1

theorem pageStep_frozen (cosd sind : ℚ → ℚ) (size : ℚ) (lines : List Line)
    (st : TestState) (a : ℚ) (h : st.selectedAngle = some a) (ev : PointerEvent) :
    (pageStep cosd sind size lines st ev).1.selectedAngle = some a ∧
    (pageStep cosd sind size lines st ev).2 = none := by
  cases ev with
  | click x y => simp [pageStep, canvasClick, h]
  | move x y => simp [pageStep, h]
  | leave => simp [pageStep, h]

theorem pageStep_emit_selected (cosd sind : ℚ → ℚ) (size : ℚ) (lines : List Line)
    (st : TestState) (ev : PointerEvent) (a : ℚ)
    (h : (pageStep cosd sind size lines st ev).2 = some a) :
    (pageStep cosd sind size lines st ev).1.selectedAngle = some a := by
  cases ev with
  | click x y =>
    cases hc : canvasClick cosd sind size
        { lines := lines, selectedAngle := st.selectedAngle,
          disabled := st.selectedAngle.isSome, hasOnSelect := true } x y with
    | none => simp [pageStep, hc] at h
    | some b =>
      simp only [pageStep, hc] at h ⊢
      simp at h
      simp [h]
  | move x y => simp [pageStep] at h
  | leave => simp [pageStep] at h

theorem pageRun_frozen (cosd sind : ℚ → ℚ) (size : ℚ) (lines : List Line) :
    ∀ (evs : List PointerEvent) (st : TestState) (a : ℚ),
      st.selectedAngle = some a →
      (pageRun cosd sind size lines st evs).1.selectedAngle = some a ∧
      (pageRun cosd sind size lines st evs).2 = [] := by
  intro evs
  induction evs with
  | nil => intro st a h; exact ⟨h, rfl⟩
  | cons ev evs ih =>
    intro st a h
    obtain ⟨h1, h2⟩ := pageStep_frozen cosd sind size lines st a h ev
    rw [pageRun]
    obtain ⟨ih1, ih2⟩ := ih (pageStep cosd sind size lines st ev).1 a h1
    exact ⟨ih1, by simp [h2, ih2]⟩

/-- C9.  Once a selection exists (the page's `selectedAngle` state is
set, which also drives the canvas's `disabled` prop), every later
click, pointer move or leave is ignored: the selection never changes
and no further `onSelect` commit is emitted — hence any event sequence
commits at most one selection per stimulus. -/
theorem claim9_commit_once (cosd sind : ℚ → ℚ) (size : ℚ) (lines : List Line) :
    (∀ (st : TestState) (a : ℚ), st.selectedAngle = some a →
      ∀ evs : List PointerEvent,
        (pageRun cosd sind size lines st evs).1.selectedAngle = some a ∧
        (pageRun cosd sind size lines st evs).2 = []) ∧
    (∀ (p : CanvasProps) (x y : ℚ),
      p.disabled = true ∨ p.selectedAngle.isSome = true →
      canvasClick cosd sind size p x y = none) ∧
    (∀ (st : TestState) (evs : List PointerEvent),
      ((pageRun cosd sind size lines st evs).2).length ≤ 1) := by
  refine ⟨fun st a h evs => pageRun_frozen cosd sind size lines evs st a h,
    ?_, ?_⟩
  · intro p x y h
    rcases h with h | h <;> simp [canvasClick, h]
  intro st evs
  induction evs generalizing st with
  | nil => simp [pageRun]
  | cons ev evs ih =>
    rw [pageRun]
    cases hr : (pageStep cosd sind size lines st ev).2 with
    | none => simpa using ih (pageStep cosd sind size lines st ev).1
    | some a =>
      have hsel := pageStep_emit_selected cosd sind size lines st ev a hr
      have := (pageRun_frozen cosd sind size lines evs
        (pageStep cosd sind size lines st ev).1 a hsel).2
      simp [hr, this]

theorem claim9_commit_once_witness :
    (pageRun (fun _ => 1) (fun _ => 0) 400 [] ⟨some 30, none⟩
      [.click 1 1, .move 2 2]).1.selectedAngle = some 30 ∧
    (pageRun (fun _ => 1) (fun _ => 0) 400 [] ⟨some 30, none⟩
      [.click 1 1, .move 2 2]).2 = [] :=
  (claim9_commit_once (fun _ => 1) (fun _ => 0) 400 []).1
    ⟨some 30, none⟩ 30 rfl [.click 1 1, .move 2 2]

/-! ## Layout geometry lemmas -/

/-- Left edge of screen quadrant `q` (quadrants 0/2 on the left,
1/3 on the right, each of width `size/2`). -/
def quadrantOriginX (size : ℚ) (q : ℕ) : ℚ := if q % 2 = 0 then 0 else size / 2

/-- Top edge of screen quadrant `q` (quadrants 0/1 on top, 2/3 at the
bottom, each of height `size/2`). -/
def quadrantOriginY (size : ℚ) (q : ℕ) : ℚ := if q < 2 then 0 else size / 2

set_option maxHeartbeats 2000000 in
/-- Every anchor computed by `layoutPosition` lies inside its
quadrant's 15%-of-size inset box (horizontal offset `3/20·size` to
`7/20·size` from the quadrant origin, same vertically). -/
theorem layoutPosition_bounds (size : ℚ) (apq q idx : ℕ) (hs : 0 ≤ size)
    (h1 : 1 ≤ apq) (h4 : apq ≤ 4) (hq : q ≤ 3) (hidx : idx < apq) :
    quadrantOriginX size q + 3/20 * size ≤ (layoutPosition size apq q idx).1 ∧
    (layoutPosition size apq q idx).1 ≤ quadrantOriginX size q + 7/20 * size ∧
    quadrantOriginY size q + 3/20 * size ≤ (layoutPosition size apq q idx).2 ∧
    (layoutPosition size apq q idx).2 ≤ quadrantOriginY size q + 7/20 * size := by
  by_cases hq2 : q % 2 = 0 <;> by_cases hqlt : q < 2 <;>
    interval_cases apq <;> interval_cases idx <;>
      (norm_num [layoutPosition, quadrantOriginX, quadrantOriginY, hq2, hqlt];
       repeat' apply And.intro) <;> linarith

theorem layoutLines_length (angles : List ℚ) (size : ℚ) :
    (layoutLines angles size).length = angles.length := by
  simp [layoutLines]

theorem layoutLines_getD (angles : List ℚ) (size : ℚ) (k : ℕ)
    (hk : k < angles.length) :
    (layoutLines angles size).getD k default =
      { angle := angles.getD k 0, id := k,
        quadrant := k / ((angles.length + 3) / 4),
        position := layoutPosition size ((angles.length + 3) / 4)
          (k / ((angles.length + 3) / 4)) (k % ((angles.length + 3) / 4)) } := by
  simp [layoutLines, List.getD_eq_getElem?_getD, List.getElem?_map, List.enum,
    List.getElem?_enumFrom, List.getElem?_eq_getElem hk]

theorem layoutLines_anchor_bounds (apq : ℕ) (h1 : 1 ≤ apq) (h4 : apq ≤ 4)
    (angles : List ℚ) (size : ℚ) (hs : 0 ≤ size)
    (hlen : angles.length = apq * 4) :
    ∀ l ∈ layoutLines angles size,
      3/20 * size ≤ l.position.1 ∧ l.position.1 ≤ 17/20 * size ∧
      3/20 * size ≤ l.position.2 ∧ l.position.2 ≤ 17/20 * size := by
  intro l hl
  obtain ⟨k, hk, hkl⟩ := List.mem_iff_getElem.mp hl
  have hklen : k < angles.length := by
    rw [layoutLines_length] at hk
    exact hk
  have hgetD : (layoutLines angles size).getD k default = l := by
    simp [List.getD_eq_getElem?_getD, List.getElem?_eq_getElem hk, hkl]
  rw [layoutLines_getD angles size k hklen] at hgetD
  have happ : (angles.length + 3) / 4 = apq := by omega
  rw [happ] at hgetD
  have hq : k / apq ≤ 3 := by
    have hk4 : k < 4 * apq := by omega
    have := (Nat.div_lt_iff_lt_mul (by omega : 0 < apq)).mpr hk4
    omega
  have hidx : k % apq < apq := Nat.mod_lt _ (by omega)
  have hb := layoutPosition_bounds size apq (k / apq) (k % apq) hs h1 h4 hq hidx
  have hpos : l.position = layoutPosition size apq (k / apq) (k % apq) := by
    rw [← hgetD]
  rw [hpos]
  have hox : quadrantOriginX size (k / apq) = 0 ∨
      quadrantOriginX size (k / apq) = size / 2 := by
    rw [quadrantOriginX]
    split
    · exact Or.inl rfl
    · exact Or.inr rfl
  have hoy : quadrantOriginY size (k / apq) = 0 ∨
      quadrantOriginY size (k / apq) = size / 2 := by
    rw [quadrantOriginY]
    split
    · exact Or.inl rfl
    · exact Or.inr rfl
  obtain ⟨hb1, hb2, hb3, hb4⟩ := hb
  rcases hox with hx | hx <;> rcases hoy with hy | hy <;>
    rw [hx] at hb1 hb2 <;> rw [hy] at hb3 hb4 <;>
    exact ⟨by linarith, by linarith, by linarith, by linarith⟩

theorem hitTest_none_of_no_candidate (cosd sind : ℚ → ℚ) (size : ℚ)
    (lines : List Line) (x y : ℚ)
    (h : ∀ l ∈ lines, isPointNearLine cosd sind size x y l = false) :
    hitTest cosd sind size lines x y = none := by
  have hF : lines.filter (isPointNearLine cosd sind size x y) = [] := by
    rw [List.filter_eq_nil_iff]
    intro l hl
    simp [h l hl]
  rw [hitTest, hF]

/-- C7.  For every option index `k` (density `anglesPerQuadrant ∈
[1,4]`, options list of length `anglesPerQuadrant*4`), the layout puts
the anchor of option `k` in quadrant `k / anglesPerQuadrant` of the
`size/2 × size/2` grid, inside the 15%-of-size inset, and the drawn
segment of length `size/8` (for any direction components bounded by
1 in absolute value, as `Math.cos`/`Math.sin` are) ends inside the
same quadrant, so the painted line never crosses the quadrant
boundary. -/
theorem claim7_layout (apq : ℕ) (h1 : 1 ≤ apq) (h4 : apq ≤ 4)
    (angles : List ℚ) (size : ℚ) (hs : 0 ≤ size)
    (hlen : angles.length = apq * 4) (k : ℕ) (hk : k < angles.length)
    (cosd sind : ℚ → ℚ) (hcos : ∀ a, |cosd a| ≤ 1) (hsin : ∀ a, |sind a| ≤ 1) :
    ((layoutLines angles size).getD k default).quadrant = k / apq ∧
    quadrantOriginX size (k / apq) + 3/20 * size ≤
      ((layoutLines angles size).getD k default).position.1 ∧
    ((layoutLines angles size).getD k default).position.1 ≤
      quadrantOriginX size (k / apq) + size / 2 - 3/20 * size ∧
    quadrantOriginY size (k / apq) + 3/20 * size ≤
      ((layoutLines angles size).getD k default).position.2 ∧
    ((layoutLines angles size).getD k default).position.2 ≤
      quadrantOriginY size (k / apq) + size / 2 - 3/20 * size ∧
    quadrantOriginX size (k / apq) ≤
      (segmentEnd cosd sind ((layoutLines angles size).getD k default).position.1
        ((layoutLines angles size).getD k default).position.2
        ((layoutLines angles size).getD k default).angle (size / 8)).1 ∧
    (segmentEnd cosd sind ((layoutLines angles size).getD k default).position.1
      ((layoutLines angles size).getD k default).position.2
      ((layoutLines angles size).getD k default).angle (size / 8)).1 ≤
      quadrantOriginX size (k / apq) + size / 2 ∧
    quadrantOriginY size (k / apq) ≤
      (segmentEnd cosd sind ((layoutLines angles size).getD k default).position.1
        ((layoutLines angles size).getD k default).position.2
        ((layoutLines angles size).getD k default).angle (size / 8)).2 ∧
    (segmentEnd cosd sind ((layoutLines angles size).getD k default).position.1
      ((layoutLines angles size).getD k default).position.2
      ((layoutLines angles size).getD k default).angle (size / 8)).2 ≤
      quadrantOriginY size (k / apq) + size / 2 := by
  have happ : (angles.length + 3) / 4 = apq := by omega
  have hq : k / apq ≤ 3 := by
    have hk4 : k < 4 * apq := by omega
    have := (Nat.div_lt_iff_lt_mul (by omega : 0 < apq)).mpr hk4
    omega
  have hidx : k % apq < apq := Nat.mod_lt _ (by omega)
  have hb := layoutPosition_bounds size apq (k / apq) (k % apq) hs h1 h4 hq hidx
  obtain ⟨hb1, hb2, hb3, hb4⟩ := hb
  simp only [layoutLines_getD angles size k hk, happ, segmentEnd]
  obtain ⟨hc1, hc2⟩ := abs_le.mp (hcos (angles.getD k 0))
  obtain ⟨hs1, hs2⟩ := abs_le.mp (hsin (angles.getD k 0))
  have hs8 : (0:ℚ) ≤ size / 8 := by linarith
  have e1 : -(size / 8) ≤ cosd (angles.getD k 0) * (size / 8) := by
    nlinarith [mul_nonneg (show (0:ℚ) ≤ cosd (angles.getD k 0) + 1 by linarith) hs8]
  have e2 : cosd (angles.getD k 0) * (size / 8) ≤ size / 8 := by
    nlinarith [mul_nonneg (show (0:ℚ) ≤ 1 - cosd (angles.getD k 0) by linarith) hs8]
  have f1 : -(size / 8) ≤ sind (angles.getD k 0) * (size / 8) := by
    nlinarith [mul_nonneg (show (0:ℚ) ≤ sind (angles.getD k 0) + 1 by linarith) hs8]
  have f2 : sind (angles.getD k 0) * (size / 8) ≤ size / 8 := by
    nlinarith [mul_nonneg (show (0:ℚ) ≤ 1 - sind (angles.getD k 0) by linarith) hs8]
  refine ⟨trivial, by linarith, by linarith, by linarith, by linarith,
    by linarith, by linarith, by linarith, by linarith⟩

theorem claim7_layout_witness :
    ((layoutLines [0, 0, 0, 0] 400).getD 0 default).quadrant = 0 / 1 :=
  (claim7_layout 1 (by decide) (by decide) [0, 0, 0, 0] 400 (by norm_num)
    (by decide) 0 (by decide) (fun _ => 1) (fun _ => 0)
    (by intro a; norm_num) (by intro a; norm_num)).1

/-- C8, counterexample.  At canvas size 50, the layout anchors a line
at `(7.5, 7.5)`; with angle 180° (direction `(-1, 0)`) its hit-test
endpoint clamps to `(20, 20)`, and the out-of-bounds pointer
`(-1, -1)` lies on the infinite line through anchor and endpoint and
inside the expanded bounding box, so `hitTest` returns a hit. -/
theorem claim8_counterexample :
    ((-1 : ℚ) < 0) ∧
    (hitTest (fun _ => -1) (fun _ => 0) 50 (layoutLines [180] 50)
      (-1) (-1)).isSome = true :=
  ⟨by norm_num, by with_unfolding_all rfl⟩

/-- C8, amended.  For canvas sizes of at least 200/3 ≈ 66.7 pixels
(the app always uses far larger canvases), every pointer coordinate
outside the canvas square yields no hit; `hitTest` is total, so it
never errors.  At smaller sizes the 10-unit bounding-box expansion can
reach outside the canvas (see the counterexample). -/
theorem claim8_out_of_bounds_no_hit (apq : ℕ) (h1 : 1 ≤ apq) (h4 : apq ≤ 4)
    (angles : List ℚ) (size : ℚ) (hsize : 200/3 ≤ size)
    (hlen : angles.length = apq * 4) (cosd sind : ℚ → ℚ) (x y : ℚ)
    (hout : x < 0 ∨ size < x ∨ y < 0 ∨ size < y) :
    hitTest cosd sind size (layoutLines angles size) x y = none := by
  have hs : (0:ℚ) ≤ size := by linarith
  apply hitTest_none_of_no_candidate
  intro l hl
  obtain ⟨ha1, ha2, ha3, ha4⟩ :=
    layoutLines_anchor_bounds apq h1 h4 angles size hs hlen l hl
  simp only [isPointNearLine, decide_eq_false_iff_not]
  intro hcand
  obtain ⟨_, _, hb1, hb2, hb3, hb4⟩ := hcand
  set ex := max (20:ℚ)
    (min (l.position.1 + cosd l.angle * min (size / 3) 150) (size - 20)) with hex
  set ey := max (20:ℚ)
    (min (l.position.2 - sind l.angle * min (size / 3) 150) (size - 20)) with hey
  have he1 : (20:ℚ) ≤ ex := le_max_left _ _
  have he2 : ex ≤ size - 20 := max_le (by linarith) (min_le_right _ _)
  have hf1 : (20:ℚ) ≤ ey := le_max_left _ _
  have hf2 : ey ≤ size - 20 := max_le (by linarith) (min_le_right _ _)
  rcases hout with hx | hx | hy | hy
  · have : (10:ℚ) ≤ min l.position.1 ex := le_min (by linarith) (by linarith)
    linarith
  · have : max l.position.1 ex ≤ size - 10 := max_le (by linarith) (by linarith)
    linarith
  · have : (10:ℚ) ≤ min l.position.2 ey := le_min (by linarith) (by linarith)
    linarith
  · have : max l.position.2 ey ≤ size - 10 := max_le (by linarith) (by linarith)
    linarith

theorem claim8_out_of_bounds_witness :
    hitTest (fun _ => 1) (fun _ => 0) 400 (layoutLines [0, 0, 0, 0] 400)
      (-5) 100 = none :=
  claim8_out_of_bounds_no_hit 1 (by decide) (by decide) [0, 0, 0, 0] 400
    (by norm_num) (by decide) (fun _ => 1) (fun _ => 0) (-5) 100
    (Or.inl (by norm_num))

/-- C10.  Whenever the paint pass runs with a defined `targetAngle`,
it draws exactly one line — the reference line centered at
`(size/2, size/2)` with the target angle, black, width 3 and length
`size/8` — and none of the option lines, whatever (possibly nonempty)
line list, selection, hover or disabled state is supplied, exactly as
on the test page, which always passes both `angles` and
`targetAngle`. -/
theorem claim10_reference_paint (size t : ℚ) (lines : List Line)
    (selectedAngle : Option ℚ) (hoveredId : Option ℕ) (disabled : Bool) :
    paintCanvas size (some t) lines selectedAngle hoveredId disabled =
      [{ startX := size / 2, startY := size / 2, angle := t, color := .black,
         lineWidth := 3, length := size / 8 }] := rfl

end DemTest
